import Mathlib

/-
  Verification of the graph_def_editor utility layer (pge/util.py).

  Shallow embedding conventions:
  * Pure Python functions become Lean functions; fallible code returns
    Except PyErr.
  * Graph / Node / Tensor objects are identified by their names (the
    repository invariant is that node names are unique within a graph and
    equality / hashing of graph elements is by identity).
  * The duck-typed tree walker is embedded twice, on the two domains the
    claims quantify over: a well-founded inductive tree of sequences,
    tuples, named tuples and mappings around graph-element leaves
    (flatten_tree / transform_tree below), and a fuel-indexed version over
    an explicit object heap (flatten_tree_fuel / transform_tree_fuel) that
    can express self-referential containers and Python strings, whose
    iteration yields one-character strings and is therefore not
    well-founded.
  * Python floats and the protobuf float field are modelled as exact
    rationals; the float32 narrowing performed by the wire format is
    outside the embedding.
-/

set_option maxRecDepth 8192

namespace PGE

/-- Python exception classes raised by the code under verification, split by
raise site.  unsupportedType, graphMismatch, emptyInput and scopeMismatch
are all ValueError in Python, distinguished there only by message. -/
inductive PyErr where
  | unsupportedType
  | graphMismatch
  | emptyInput
  | scopeMismatch
  | notFound
  | attributeError
  | typeError
deriving DecidableEq

/-- Python str.startswith: p is a prefix of s. -/
def strStartsWith (s p : String) : Bool :=
  p.data.isPrefixOf s.data

/-- util.scope_finalize: append the delimiter if the scope is non-empty and
does not already end in a slash. -/
def scope_finalize (scope : String) : String :=
  match scope.data.getLast? with
  | some c => if c ≠ '/' then scope ++ "/" else scope
  | none => scope

/-- util.scope_dirname: everything up to and including the last slash,
empty if there is none (scope.rfind and a slice in the source). -/
def scope_dirname (scope : String) : String :=
  ⟨(scope.data.reverse.dropWhile (fun c => c ≠ '/')).reverse⟩

/-- util.scope_basename: everything after the last slash, the whole string
if there is none. -/
def scope_basename (scope : String) : String :=
  ⟨(scope.data.reverse.takeWhile (fun c => c ≠ '/')).reverse⟩

/- ## TreeWalker, well-founded domain (claims about trees of sequences,
tuples, named tuples and mappings around graph-element leaves). -/

/-- The domain of claim C4: trees built by nesting Python lists (seq),
tuples (tup), named tuples (ntup, whose iteration yields the field values
in order) and dicts (dict, iterated by iteritems in insertion order)
around leaves of type alpha.  Leaves are the non-iterable values
(pge Node objects and other values on which iter fails). -/
inductive PTree (α : Type) where
  | leaf (a : α)
  | seq (children : List (PTree α))
  | tup (children : List (PTree α))
  | ntup (tname : String) (fields : List (String × PTree α))
  | dict (entries : List (String × PTree α))

mutual
/-- util.flatten_tree on the well-founded domain: dicts are walked over
their values, every other iterable over its children, and non-iterables
are appended to the leaf list. -/
def flatten_tree {α : Type} : PTree α → List α
  | .leaf a => [a]
  | .seq cs => flattenChildren cs
  | .tup cs => flattenChildren cs
  | .ntup _ fs => flattenFields fs
  | .dict es => flattenFields es

/-- Walk a list of children, concatenating their leaves in order. -/
def flattenChildren {α : Type} : List (PTree α) → List α
  | [] => []
  | c :: cs => flatten_tree c ++ flattenChildren cs

/-- Walk the values of a keyed container, concatenating their leaves in
order. -/
def flattenFields {α : Type} : List (String × PTree α) → List α
  | [] => []
  | e :: es => flatten_tree e.2 ++ flattenFields es
end

mutual
/-- util.transform_tree on the well-founded domain: rebuilds the same
container shape (dict branch, namedtuple branch via _asdict, tuple branch,
Sequence branch of the source) and applies fn to every leaf. -/
def transform_tree {α β : Type} (fn : α → β) : PTree α → PTree β
  | .leaf a => .leaf (fn a)
  | .seq cs => .seq (transformChildren fn cs)
  | .tup cs => .tup (transformChildren fn cs)
  | .ntup n fs => .ntup n (transformFields fn fs)
  | .dict es => .dict (transformFields fn es)

/-- Transform every child of an unkeyed container. -/
def transformChildren {α β : Type} (fn : α → β) : List (PTree α) → List (PTree β)
  | [] => []
  | c :: cs => transform_tree fn c :: transformChildren fn cs

/-- Transform every value of a keyed container, keeping the keys. -/
def transformFields {α β : Type} (fn : α → β) : List (String × PTree α) → List (String × PTree β)
  | [] => []
  | e :: es => (e.1, transform_tree fn e.2) :: transformFields fn es
end

/- ## TreeWalker, object-heap domain (self-reference and strings). -/

/-- A Python object in the duck-typed tree walker domain: a pge Node
(never iterable by the explicit isinstance check in util.is_iterable), an
atom on which iter raises (an int, a float, an arbitrary object), a
Python string (iterable, yielding one-character strings), or a reference
to a container cell of the heap. -/
inductive HVal where
  | nodeV (id : Nat)
  | atomV (id : Nat)
  | strV (s : String)
  | cellR (i : Nat)
deriving DecidableEq

/-- A container cell: a list (or other unkeyed sequence) of children, or a
dict of entries iterated in insertion order. -/
inductive HCell where
  | seqC (children : List HVal)
  | dictC (entries : List (String × HVal))
deriving DecidableEq

/-- The object heap: cell i of a value cellR i is heap position i.  A heap
whose cell refers back to itself models a self-referential container. -/
abbrev Heap := List HCell

/-- Read cell i of the heap (inputs under consideration never use dangling
references; an out-of-range index reads as an empty sequence). -/
def getCell (h : Heap) (i : Nat) : HCell :=
  (h.get? i).getD (.seqC [])

/-- util.is_iterable: false for pge Node objects and for values on which
iter raises, true for every other value, including strings. -/
def is_iterable : HVal → Bool
  | .nodeV _ => false
  | .atomV _ => false
  | .strV _ => true
  | .cellR _ => true

/-- Iterating a Python string yields its characters as one-character
strings. -/
def strChildren (s : String) : List HVal :=
  s.data.map (fun c => HVal.strV ⟨[c]⟩)

/-- util.flatten_tree on the object heap, indexed by recursion depth
(fuel).  A result of none means the recursion is still running at that
depth: the source has no self-reference guard and no error path, so on a
cyclic container or a non-empty string the result is none at every depth.
Dict cells are walked over their values (the dict branch of the source
comes first), every other iterable over its children, and non-iterables
are the leaves. -/
def flatten_tree_fuel (h : Heap) : Nat → HVal → Option (List HVal)
  | 0, _ => none
  | fuel+1, v =>
    match v with
    | .cellR i =>
      match getCell h i with
      | .dictC es =>
        es.foldl (fun acc e => acc.bind fun r =>
          (flatten_tree_fuel h fuel e.2).map (fun l => r ++ l)) (some [])
      | .seqC cs =>
        cs.foldl (fun acc c => acc.bind fun r =>
          (flatten_tree_fuel h fuel c).map (fun l => r ++ l)) (some [])
    | .strV s =>
      (strChildren s).foldl (fun acc c => acc.bind fun r =>
        (flatten_tree_fuel h fuel c).map (fun l => r ++ l)) (some [])
    | v => some [v]

/-- The tree produced by util.transform_tree on the object heap domain. -/
inductive RTree where
  | leafT (v : HVal)
  | seqT (children : List RTree)
  | dictT (entries : List (String × RTree))
  | strT (s : String)

/-- util.transform_tree on the object heap, indexed by recursion depth.
The dict branch rebuilds the dict over transformed values; the Sequence
branch rebuilds the sequence from a generator of transformed children,
which list initialisation consumes; for a str the Sequence branch calls
str new (producing the empty string) and str init, which ignores the
generator argument, so the children are never visited and the result is
the empty string. -/
def transform_tree_fuel (h : Heap) (fn : HVal → HVal) : Nat → HVal → Option RTree
  | 0, _ => none
  | fuel+1, v =>
    match v with
    | .cellR i =>
      match getCell h i with
      | .dictC es =>
        (es.foldl (fun acc e => acc.bind fun r =>
          (transform_tree_fuel h fn fuel e.2).map (fun t => r ++ [(e.1, t)])) (some [])).map RTree.dictT
      | .seqC cs =>
        (cs.foldl (fun acc c => acc.bind fun r =>
          (transform_tree_fuel h fn fuel c).map (fun t => r ++ [t])) (some [])).map RTree.seqT
    | .strV _ => some (.strT "")
    | v => some (.leafT (fn v))

/-- A heap with one cell that contains itself: the self-referential list
l = [l]. -/
def cyclicHeap : Heap := [HCell.seqC [HVal.cellR 0]]

/-- A heap whose cell 0 is the list with a non-empty string and a Node. -/
def strHeap : Heap := [HCell.seqC [HVal.strV "ab", HVal.nodeV 0]]

/-- The value v contains a non-empty string: v is itself a non-empty
string, or a container cell one of whose children (values, for a dict)
contains one. -/
inductive ContainsNEStr (h : Heap) : HVal → Prop where
  | strHere {s : String} (hs : s ≠ "") : ContainsNEStr h (.strV s)
  | inSeq {i : Nat} {cs : List HVal} {c : HVal} (hc : getCell h i = .seqC cs)
      (hm : c ∈ cs) (hcon : ContainsNEStr h c) : ContainsNEStr h (.cellR i)
  | inDict {i : Nat} {es : List (String × HVal)} {k : String} {c : HVal}
      (hc : getCell h i = .dictC es) (hm : (k, c) ∈ es)
      (hcon : ContainsNEStr h c) : ContainsNEStr h (.cellR i)

/- ## ControlOutputs (reverse control-dependency index). -/

/-- A pge Node reduced to what ControlOutputs reads: its name and the
names of its control inputs.  Node identity is name identity (names are
unique within a graph). -/
structure PNode where
  name : String
  control_inputs : List String
deriving DecidableEq

/-- A pge Graph reduced to what ControlOutputs reads: the node list in
scan order and the structural version counter. -/
structure PGraph where
  nodes : List PNode
  version : Nat
deriving DecidableEq

/-- The control-outputs dictionary: an insertion-ordered association from
a node name to the list of names of nodes that declare it as a control
input. -/
abbrev CtrlMap := List (String × List String)

/-- Dictionary lookup (first matching key). -/
def lookupCI : CtrlMap → String → Option (List String)
  | [], _ => none
  | (k, v) :: rest, key => if k = key then some v else lookupCI rest key

/-- Replace the value stored under an existing key. -/
def setCI : CtrlMap → String → List String → CtrlMap
  | [], _, _ => []
  | (k, v) :: rest, key, nv =>
    if k = key then (k, nv) :: rest else (k, v) :: setCI rest key nv

/-- One step of ControlOutputs._build: ensure the key control_input is
present, then append the node name to its list if it is not there
already. -/
def addCtrlOutput (m : CtrlMap) (ci nodeName : String) : CtrlMap :=
  match lookupCI m ci with
  | none => m ++ [(ci, [nodeName])]
  | some l => if nodeName ∈ l then m else setCI m ci (l ++ [nodeName])

/-- Process all control inputs of one node during the build scan. -/
def buildNode (m : CtrlMap) (nd : PNode) : CtrlMap :=
  nd.control_inputs.foldl (fun m ci => addCtrlOutput m ci nd.name) m

/-- ControlOutputs._build: scan every node of the graph in order. -/
def controlOutputsMap (g : PGraph) : CtrlMap :=
  g.nodes.foldl buildNode []

/-- The state of a ControlOutputs object: the cached dictionary and the
graph version recorded when it was built (None only before the first
build, which the constructor always performs). -/
structure ControlOutputs where
  control_outputs : CtrlMap
  version : Option Nat
deriving DecidableEq

/-- ControlOutputs._build including the version stamp: rebuild the
dictionary from the graph and record its current version. -/
def ControlOutputs.build (g : PGraph) : ControlOutputs :=
  ⟨controlOutputsMap g, some g.version⟩

/-- ControlOutputs.__init__: build immediately. -/
def ControlOutputs.init (g : PGraph) : ControlOutputs :=
  ControlOutputs.build g

/-- ControlOutputs.update: rebuild if and only if the recorded version
differs from the current version of the graph.  The graph is passed
explicitly here; in the source it is the mutable object the index holds a
reference to. -/
def ControlOutputs.update (co : ControlOutputs) (g : PGraph) : ControlOutputs :=
  if co.version ≠ some g.version then ControlOutputs.build g else co

/-- ControlOutputs.get: read the cached dictionary only, returning the
empty sequence for an absent key.  Note that get takes no graph argument
and performs no version comparison: it never rebuilds. -/
def ControlOutputs.get (co : ControlOutputs) (op : String) : List String :=
  (lookupCI co.control_outputs op).getD []

/-- Lookup in a raw control-outputs dictionary with empty default, used to
state the build lemmas. -/
def getCtrl (m : CtrlMap) (k : String) : List String :=
  (lookupCI m k).getD []

/-- A graph with nodes d and c and no control edges, at version 0. -/
def g0 : PGraph := ⟨[⟨"d", []⟩, ⟨"c", []⟩], 0⟩

/-- The same graph after the structural mutation that adds the control
edge d to c: c now lists d as a control input and the version counter has
advanced. -/
def g1 : PGraph := ⟨[⟨"d", []⟩, ⟨"c", ["d"]⟩], 1⟩

/-- A concrete graph for the C5 witness: b and c list a as a control
input, c lists a twice and also b. -/
def gW : PGraph := ⟨[⟨"a", []⟩, ⟨"b", ["a"]⟩, ⟨"c", ["a", "a", "b"]⟩], 0⟩

/- ## get_unique_graph. -/

/-- A list element given to get_unique_graph, reduced to what the loop
reads: the identity of the graph the Node or Tensor belongs to.  The
claim quantifies over iterables of Nodes and Tensors, all of which pass
the isinstance check against the default check_types. -/
structure TopElem where
  graph : Nat
deriving DecidableEq

/-- The scan loop of util.get_unique_graph: remember the graph of the
first element, raise ValueError as soon as an element belongs to a
different graph (identity comparison). -/
def guGraphLoop : List TopElem → Option Nat → Except PyErr (Option Nat)
  | [], g => .ok g
  | op :: rest, g =>
    match g with
    | none => guGraphLoop rest (some op.graph)
    | some gid =>
      if gid = op.graph then guGraphLoop rest (some gid)
      else .error .graphMismatch

/-- util.get_unique_graph on an iterable of graph elements: after the
scan, an empty input raises ValueError unless none_if_empty is set, in
which case None is returned. -/
def get_unique_graph (tops : List TopElem) (none_if_empty : Bool) : Except PyErr (Option Nat) :=
  match guGraphLoop tops none with
  | .error e => .error e
  | .ok none => if none_if_empty then .ok none else .error .emptyInput
  | .ok (some g) => .ok (some g)

/- ## PlaceholderFactory naming. -/

/-- A pge Tensor reduced to what placeholder_name reads: the name of its
producing node and its output index. -/
structure PTensor where
  node_name : String
  value_index : Nat
deriving DecidableEq

/-- util.placeholder_name: finalize the scope if given; with a tensor,
default the scope to the dirname of the node name, keep the basename
unchanged when it already carries the reserved prefix and otherwise build
prefix, two underscores, basename, one underscore and the output index;
with no tensor, return the scope followed by the bare prefix. -/
def placeholder_name (t : Option PTensor) (scope : Option String) (pfx : String) : String :=
  let scope1 := scope.map scope_finalize
  match t with
  | some t =>
    let op_dirname := scope_dirname t.node_name
    let op_basename := scope_basename t.node_name
    let scope2 := scope1.getD op_dirname
    let ph_name :=
      if strStartsWith op_basename (pfx ++ "__") then op_basename
      else pfx ++ "__" ++ op_basename ++ "_" ++ toString t.value_index
    scope2 ++ ph_name
  | none => scope1.getD "" ++ pfx

/- ## find_corresponding_elem. -/

/-- The target of a correspondence lookup: a Tensor or a Node, carrying
its name. -/
inductive TElem where
  | tensorE (name : String)
  | nodeE (name : String)
deriving DecidableEq

/-- The name of a target element. -/
def TElem.name : TElem → String
  | .tensorE n => n
  | .nodeE n => n

/-- Modelled from the spec: the destination graph consulted by
find_corresponding_elem.  The Graph class itself is an external
collaborator (it is not under the verified sources); per the spec,
get_tensor_by_name and the node indexer resolve a name in the Tensor or
Node namespace and fail with NotFound (KeyError) when the name is
absent. -/
structure DstGraph where
  tensor_names : List String
  node_names : List String
deriving DecidableEq

/-- util.find_corresponding_elem.  When src_scope is non-empty the source
finalizes it and then calls src_name.startswidth(src_scope): startswidth
is not a method of str (a typo for startswith), so Python raises
AttributeError before any prefix comparison, for every target name.  With
an empty src_scope the name is prefixed by the finalized dst_scope and
resolved in the destination graph according to the kind of the target. -/
def find_corresponding_elem (target : TElem) (dst : DstGraph)
    (dst_scope src_scope : String) : Except PyErr TElem :=
  let src_name := target.name
  if src_scope ≠ "" then
    .error .attributeError
  else
    let dst_name := if dst_scope ≠ "" then scope_finalize dst_scope ++ src_name else src_name
    match target with
    | .tensorE _ =>
      if dst.tensor_names.contains dst_name then .ok (.tensorE dst_name)
      else .error .notFound
    | .nodeE _ =>
      if dst.node_names.contains dst_name then .ok (.nodeE dst_name)
      else .error .notFound

/- ## AttrValueCodec. -/

/-- A TensorShape payload: none is a shape of unknown rank, a dimension of
none is an unknown dimension.  Carried verbatim through as_proto and the
TensorShape constructor, which are mutually inverse. -/
abbrev TShape := Option (List (Option Nat))

/-- A dense numeric constant (numpy ndarray / TensorProto payload):
element type, shape and flat data.  make_tensor_proto and make_ndarray
are mutually inverse on such values. -/
structure TensorVal where
  dt : Nat
  shp : List Nat
  data : List Rat
deriving DecidableEq

/-- tf.AttrValue.ListValue: one repeated field per element type.  Elements
of a heterogeneous Python sequence are appended to the field of their own
type. -/
structure ListValue where
  s : List String
  i : List Int
  f : List Rat
  b : List Bool
  type : List Nat
  shape : List TShape
  tensor : List TensorVal
deriving DecidableEq

/-- The empty ListValue. -/
def emptyListValue : ListValue := ⟨[], [], [], [], [], [], []⟩

/-- tf.AttrValue: a protobuf oneof over the supported variants; unset is
an AttrValue in which no member of the oneof is populated. -/
inductive AttrValue where
  | s (v : String)
  | i (v : Int)
  | f (v : Rat)
  | b (v : Bool)
  | type (v : Nat)
  | shape (v : TShape)
  | tensor (v : TensorVal)
  | list (v : ListValue)
  | unset
deriving DecidableEq

/-- A Python value given to the codec: the scalar types with an AttrValue
variant, Python lists and tuples, a value already in wire form, and other
for a value of any type outside the dispatch chain of the source. -/
inductive PyValue where
  | str (v : String)
  | int (v : Int)
  | float (v : Rat)
  | bool (v : Bool)
  | dtype (v : Nat)
  | tshape (v : TShape)
  | ndarray (v : TensorVal)
  | pylist (elems : List PyValue)
  | pytuple (elems : List PyValue)
  | attr (a : AttrValue)
  | other (tag : String)

/-- util._python_type_to_attr_list_elem: append one element to the
ListValue field of its type, following the isinstance chain of the
source.  A Python bool is an int, so the int branch fires first and a
bool is appended to the i field as 1 or 0; the explicit bool branch of
the source is unreachable.  Lists, tuples, AttrValue objects and any
other type raise ValueError. -/
def python_type_to_attr_list_elem (lv : ListValue) (elem : PyValue) : Except PyErr ListValue :=
  match elem with
  | .str v => .ok { lv with s := lv.s ++ [v] }
  | .int v => .ok { lv with i := lv.i ++ [v] }
  | .bool v => .ok { lv with i := lv.i ++ [if v then 1 else 0] }
  | .float v => .ok { lv with f := lv.f ++ [v] }
  | .dtype v => .ok { lv with type := lv.type ++ [v] }
  | .tshape v => .ok { lv with shape := lv.shape ++ [v] }
  | .ndarray v => .ok { lv with tensor := lv.tensor ++ [v] }
  | _ => .error .unsupportedType

/-- The element loop of python_type_to_attr_value: encode each element of
a sequence in order into the accumulated ListValue, stopping at the first
element that raises. -/
def encodeListAux (lv : ListValue) : List PyValue → Except PyErr ListValue
  | [] => .ok lv
  | e :: es =>
    match python_type_to_attr_list_elem lv e with
    | .error err => .error err
    | .ok lv2 => encodeListAux lv2 es

/-- Encode the elements of a non-empty sequence in order, starting from
the empty ListValue. -/
def encodeList (elems : List PyValue) : Except PyErr ListValue :=
  encodeListAux emptyListValue elems

/-- util.python_type_to_attr_value: sequences encode element-wise into a
list variant (an empty sequence into the empty ListValue), a value
already in wire form passes through, scalars map to the variant of their
type (a bool through the int branch, as in the list case), and any other
type raises ValueError. -/
def python_type_to_attr_value (value : PyValue) : Except PyErr AttrValue :=
  match value with
  | .pylist elems =>
    if elems.isEmpty then .ok (.list emptyListValue)
    else (encodeList elems).map .list
  | .pytuple elems =>
    if elems.isEmpty then .ok (.list emptyListValue)
    else (encodeList elems).map .list
  | .attr a => .ok a
  | .str v => .ok (.s v)
  | .int v => .ok (.i v)
  | .bool v => .ok (.i (if v then 1 else 0))
  | .float v => .ok (.f v)
  | .dtype v => .ok (.type v)
  | .tshape v => .ok (.shape v)
  | .ndarray v => .ok (.tensor v)
  | .other _ => .error .unsupportedType

/-- util.attr_value_to_python_type: inspect the HasField chain s, i, f, b,
type, shape, tensor and return the corresponding native value.  There is
no case for the list field (a TODO in the source), so a list-variant
AttrValue falls through to the same ValueError as an AttrValue with no
populated variant. -/
def attr_value_to_python_type (a : AttrValue) : Except PyErr PyValue :=
  match a with
  | .s v => .ok (.str v)
  | .i v => .ok (.int v)
  | .f v => .ok (.float v)
  | .b v => .ok (.bool v)
  | .type v => .ok (.dtype v)
  | .shape v => .ok (.tshape v)
  | .tensor v => .ok (.ndarray v)
  | .list _ => .error .unsupportedType
  | .unset => .error .unsupportedType

/-- Python equality on the values the round-trip claims range over:
structural on each scalar type, with the numeric cross-type equalities of
Python (a bool equals its integer value, an int equals the float of the
same value). -/
def pyEq : PyValue → PyValue → Bool
  | .str a, .str b => decide (a = b)
  | .int a, .int b => decide (a = b)
  | .int a, .bool b => decide (a = (if b then 1 else 0))
  | .bool a, .int b => decide ((if a then (1 : Int) else 0) = b)
  | .bool a, .bool b => decide (a = b)
  | .float a, .float b => decide (a = b)
  | .int a, .float b => decide ((a : Rat) = b)
  | .float a, .int b => decide (a = (b : Rat))
  | .bool a, .float b => decide ((if a then (1 : Rat) else 0) = b)
  | .float a, .bool b => decide (a = (if b then (1 : Rat) else 0))
  | .dtype a, .dtype b => decide (a = b)
  | .tshape a, .tshape b => decide (a = b)
  | .ndarray a, .ndarray b => decide (a = b)
  | _, _ => false

/-- The scalar representable values: a string, an integer, a float, a
boolean, a datatype descriptor, a shape descriptor or a dense numeric
constant. -/
def isScalarValue : PyValue → Bool
  | .str _ => true
  | .int _ => true
  | .float _ => true
  | .bool _ => true
  | .dtype _ => true
  | .tshape _ => true
  | .ndarray _ => true
  | _ => false

/-- A sequence element whose native type has a ListValue field in the
encoder. -/
def elemSupported : PyValue → Bool
  | .str _ => true
  | .int _ => true
  | .float _ => true
  | .bool _ => true
  | .dtype _ => true
  | .tshape _ => true
  | .ndarray _ => true
  | _ => false

/-- Statement of the C8 success condition for the encoder, written from
the claim: encoding succeeds unless the value itself has no variant, or
it is a sequence one of whose elements has no list-element variant. -/
def encodeOkSpec : PyValue → Bool
  | .other _ => false
  | .pylist es => es.all elemSupported
  | .pytuple es => es.all elemSupported
  | _ => true

/-- Statement of the C8 success condition for the decoder, written from
the claim: decoding succeeds exactly when one of the variants recognized
by the HasField chain of the source is populated. -/
def decodeOkSpec : AttrValue → Bool
  | .list _ => false
  | .unset => false
  | _ => true

/-- Whether an Except value is a success. -/
def isOkE {ε α : Type} : Except ε α → Bool
  | .ok _ => true
  | .error _ => false

/- ## Theorems. -/

/-- isOkE commutes with Except.map. -/
theorem isOkE_map {ε α β : Type} (f : α → β) (x : Except ε α) :
    isOkE (x.map f) = isOkE x := by
  cases x <;> rfl

/-- isOkE on a success. -/
theorem isOkE_ok {ε α : Type} (a : α) : isOkE (ε := ε) (.ok a) = true := rfl

/-- isOkE on a failure. -/
theorem isOkE_error {ε α : Type} (e : ε) : isOkE (α := α) (.error e) = false := rfl

/-- The element loop succeeds exactly when every element has a
list-element variant, whatever the accumulator. -/
theorem encodeListAux_isOk (es : List PyValue) :
    ∀ lv : ListValue, isOkE (encodeListAux lv es) = es.all elemSupported := by
  induction es with
  | nil => intro lv; rfl
  | cons e es ih =>
    intro lv
    cases e <;>
      simp [encodeListAux, python_type_to_attr_list_elem, elemSupported, ih,
        List.all_cons, isOkE_ok, isOkE_error]

/-- Claim C8 (confirmed): python_type_to_attr_value raises UnsupportedType
(a ValueError) exactly for a value whose native type has no AttrValue
variant or for a sequence one of whose elements has no list-element
variant, and attr_value_to_python_type raises UnsupportedType exactly for
an AttrValue in which no variant recognized by its HasField chain is
populated (which includes the list variant, for which the decoder has no
case); on every other input both return normally. -/
theorem claim_c8 (v : PyValue) (a : AttrValue) :
    isOkE (python_type_to_attr_value v) = encodeOkSpec v ∧
    isOkE (attr_value_to_python_type a) = decodeOkSpec a := by
  constructor
  · cases v with
    | pylist es =>
      by_cases he : es.isEmpty
      · have : es = [] := List.isEmpty_iff.mp he
        subst this
        rfl
      · simp [python_type_to_attr_value, he, encodeOkSpec, isOkE_map,
          encodeList, encodeListAux_isOk]
    | pytuple es =>
      by_cases he : es.isEmpty
      · have : es = [] := List.isEmpty_iff.mp he
        subst this
        rfl
      · simp [python_type_to_attr_value, he, encodeOkSpec, isOkE_map,
          encodeList, encodeListAux_isOk]
    | _ => rfl
  · cases a <;> rfl

/-- Claim C1 counterexample: the round trip fails on a sequence.  Encoding
the one-element list with the integer 1 yields a list-variant AttrValue,
and decoding it raises UnsupportedType (the decoder has no list case)
instead of returning the original list. -/
theorem claim_c1_counterexample :
    (python_type_to_attr_value (.pylist [.int 1])).bind attr_value_to_python_type
      = .error .unsupportedType := rfl

/-- Claim C1 (corrected): for every representable scalar value (a string,
an integer, a float, a boolean, a datatype descriptor, a shape
descriptor, a dense numeric constant), decoding the encoded wire form
returns a value equal, under Python equality, to the original (a bool
comes back as the equal int, since the int branch of the encoder fires
on bools).  Sequences are excluded: see the counterexample. -/
theorem claim_c1 (v : PyValue) (h : isScalarValue v = true) :
    ∃ w, (python_type_to_attr_value v).bind attr_value_to_python_type = .ok w ∧
      pyEq w v = true := by
  cases v with
  | str s => exact ⟨.str s, rfl, by simp [pyEq]⟩
  | int n => exact ⟨.int n, rfl, by simp [pyEq]⟩
  | float q => exact ⟨.float q, rfl, by simp [pyEq]⟩
  | bool b => cases b <;> exact ⟨_, rfl, by decide⟩
  | dtype d => exact ⟨.dtype d, rfl, by simp [pyEq]⟩
  | tshape sh => exact ⟨.tshape sh, rfl, by simp [pyEq]⟩
  | ndarray nd => exact ⟨.ndarray nd, rfl, by simp [pyEq]⟩
  | pylist es => simp [isScalarValue] at h
  | pytuple es => simp [isScalarValue] at h
  | attr a => simp [isScalarValue] at h
  | other t => simp [isScalarValue] at h

/-- Witness for claim C1 at the integer 3. -/
theorem claim_c1_witness :
    isScalarValue (.int 3) = true ∧
    ∃ w, (python_type_to_attr_value (.int 3)).bind attr_value_to_python_type = .ok w ∧
      pyEq w (.int 3) = true :=
  ⟨rfl, claim_c1 (.int 3) rfl⟩

/-- Claim C3 (code bug): for a target named foo/bar and source scope foo,
the name does start with the finalized scope foo/, so per the claim the
lookup should strip it and resolve bar in the destination graph; the
source instead calls the nonexistent str method startswidth (a typo for
startswith) whenever the source scope is non-empty, so Python raises
AttributeError before any prefix comparison, for Node and Tensor targets
alike. -/
theorem claim_c3_bug :
    strStartsWith "foo/bar" (scope_finalize "foo") = true ∧
    find_corresponding_elem (.nodeE "foo/bar") ⟨[], ["bar"]⟩ "" "foo"
      = .error .attributeError ∧
    find_corresponding_elem (.tensorE "foo/bar") ⟨["bar"], []⟩ "" "foo"
      = .error .attributeError :=
  ⟨rfl, rfl, rfl⟩

/-- Claim C6 (confirmed): placeholder_name with a tensor and a scope
returns the finalized scope followed by the basename unchanged when the
basename already starts with the reserved prefix geph plus two
underscores, and otherwise by geph, two underscores, the basename, one
underscore and the output index; with no tensor it returns the finalized
scope followed by geph.  The function is pure, so two calls on identical
arguments return identical names. -/
theorem claim_c6 (t : PTensor) (s : String) :
    placeholder_name (some t) (some s) "geph" =
      scope_finalize s ++
        (if strStartsWith (scope_basename t.node_name) "geph__"
          then scope_basename t.node_name
          else "geph__" ++ scope_basename t.node_name ++ "_" ++ toString t.value_index) ∧
    placeholder_name none (some s) "geph" = scope_finalize s ++ "geph" :=
  ⟨rfl, rfl⟩

/-- The scan loop of get_unique_graph, started at a known graph, succeeds
with that graph when every remaining element belongs to it and raises the
graph-mismatch ValueError otherwise. -/
theorem guGraphLoop_some (ts : List TopElem) (gid : Nat) :
    guGraphLoop ts (some gid) =
      if ts.all (fun x => x.graph == gid) then .ok (some gid)
      else .error .graphMismatch := by
  induction ts with
  | nil => rfl
  | cons t ts ih =>
    by_cases h : gid = t.graph
    · subst h
      have hstep : guGraphLoop (t :: ts) (some t.graph) = guGraphLoop ts (some t.graph) := by
        show (if t.graph = t.graph then guGraphLoop ts (some t.graph)
          else Except.error PyErr.graphMismatch) = _
        rw [if_pos rfl]
      rw [hstep, ih, List.all_cons]
      simp
    · have hstep : guGraphLoop (t :: ts) (some gid) = Except.error PyErr.graphMismatch := by
        show (if gid = t.graph then guGraphLoop ts (some gid)
          else Except.error PyErr.graphMismatch) = _
        rw [if_neg h]
      have hb : (t.graph == gid) = false := by
        simp only [beq_eq_false_iff_ne, ne_eq]
        exact fun he => h he.symm
      rw [hstep, List.all_cons, hb]
      simp

/-- Claim C9 (confirmed): get_unique_graph on an empty iterable returns
None when none_if_empty is set and raises the empty-input ValueError
otherwise; on a non-empty iterable it raises the graph-mismatch
ValueError when two elements belong to different graphs and returns the
shared graph otherwise.  The embedding is pure, so the inputs are never
mutated. -/
theorem claim_c9 (tops : List TopElem) (nie : Bool) :
    get_unique_graph tops nie =
      match tops with
      | [] => if nie then .ok none else .error .emptyInput
      | t :: ts =>
        if ts.all (fun x => x.graph == t.graph) then .ok (some t.graph)
        else .error .graphMismatch := by
  cases tops with
  | nil => cases nie <;> rfl
  | cons t ts =>
    have hstep : get_unique_graph (t :: ts) nie =
        (match guGraphLoop ts (some t.graph) with
          | Except.error e => Except.error e
          | Except.ok none => if nie then Except.ok none else Except.error PyErr.emptyInput
          | Except.ok (some g) => Except.ok (some g)) := rfl
    rw [hstep, guGraphLoop_some]
    by_cases h : ts.all (fun x => x.graph == t.graph) <;> simp [h]

/-- Claim C2 counterexample: build the index on the graph g0 (no control
edges, version 0), then mutate to g1 by adding the control edge d to c
(version 1).  The version has advanced, yet the very next query get(d)
still returns the empty sequence, because get reads only the cached
dictionary; only the explicit update call rebuilds and then reports c. -/
theorem claim_c2_counterexample :
    g1.version ≠ g0.version ∧
    (ControlOutputs.init g0).get "d" = [] ∧
    (ControlOutputs.init g0).version ≠ some g1.version ∧
    ((ControlOutputs.init g0).update g1).get "d" = ["c"] := by
  refine ⟨by decide, by decide, by decide, by decide⟩

/-- Claim C2 (corrected): ControlOutputs.get performs no version
comparison and never rebuilds; it is the explicit update method that
compares the stored build version with the current version of the graph
and rebuilds the whole index from scratch when they differ, so a control
edge added after the index was built is reflected in get only after
update is invoked with the version advanced. -/
theorem claim_c2 (co : ControlOutputs) (g : PGraph) (nd : String)
    (h : co.version ≠ some g.version) :
    (co.update g).get nd = (ControlOutputs.init g).get nd ∧
    (co.update g).version = some g.version := by
  have hstep : co.update g = ControlOutputs.build g := by
    show (if co.version ≠ some g.version then ControlOutputs.build g else co) = _
    rw [if_pos h]
  rw [hstep]
  exact ⟨rfl, rfl⟩

/-- Witness for claim C2: updating the stale index built on g0 against g1
answers the same as a fresh index on g1. -/
theorem claim_c2_witness :
    (ControlOutputs.init g0).version ≠ some g1.version ∧
    (((ControlOutputs.init g0).update g1).get "d" = (ControlOutputs.init g1).get "d" ∧
      ((ControlOutputs.init g0).update g1).version = some g1.version) :=
  ⟨by decide, claim_c2 (ControlOutputs.init g0) g1 "d" (by decide)⟩

mutual
/-- Flattening a transformed tree maps the leaves, tree case. -/
theorem flatten_transform {α β : Type} (fn : α → β) :
    ∀ t : PTree α, flatten_tree (transform_tree fn t) = (flatten_tree t).map fn
  | .leaf _ => rfl
  | .seq cs => flatten_transform_children fn cs
  | .tup cs => flatten_transform_children fn cs
  | .ntup _ fs => flatten_transform_fields fn fs
  | .dict es => flatten_transform_fields fn es

/-- Flattening a transformed tree maps the leaves, child-list case. -/
theorem flatten_transform_children {α β : Type} (fn : α → β) :
    ∀ cs : List (PTree α),
      flattenChildren (transformChildren fn cs) = (flattenChildren cs).map fn
  | [] => rfl
  | c :: cs => by
      show flatten_tree (transform_tree fn c) ++ flattenChildren (transformChildren fn cs)
        = (flatten_tree c ++ flattenChildren cs).map fn
      rw [flatten_transform fn c, flatten_transform_children fn cs, List.map_append]

/-- Flattening a transformed tree maps the leaves, entry-list case. -/
theorem flatten_transform_fields {α β : Type} (fn : α → β) :
    ∀ es : List (String × PTree α),
      flattenFields (transformFields fn es) = (flattenFields es).map fn
  | [] => rfl
  | (k, t) :: es => by
      show flatten_tree (transform_tree fn t) ++ flattenFields (transformFields fn es)
        = (flatten_tree t ++ flattenFields es).map fn
      rw [flatten_transform fn t, flatten_transform_fields fn es, List.map_append]
end

/-- Claim C4 (confirmed): for every tree of nested sequences, tuples
(named tuples included) and mappings around graph-element leaves and
every function fn, flattening the transformed tree yields exactly the map
of fn over the flattened original: the transformed tree has the same
container shape and yields the mapped leaves in the same order. -/
theorem claim_c4 {α β : Type} (fn : α → β) (t : PTree α) :
    flatten_tree (transform_tree fn t) = (flatten_tree t).map fn :=
  flatten_transform fn t

/-- A fold of the tree-walker shape starting from a dead accumulator
stays dead. -/
theorem foldl_bind_none {α β γ : Type} (g : α → Option γ) (cmb : List β → γ → List β)
    (l : List α) :
    l.foldl (fun acc x => acc.bind fun r => (g x).map (cmb r)) none = none := by
  induction l with
  | nil => rfl
  | cons x l ih =>
    rw [List.foldl_cons]
    exact ih

/-- A fold of the tree-walker shape dies as soon as any element of the
list has a dead recursive result, whatever the accumulator. -/
theorem foldl_bind_elem_none {α β γ : Type} (g : α → Option γ) (cmb : List β → γ → List β) :
    ∀ (l : List α) (acc : Option (List β)) (x : α), x ∈ l → g x = none →
      l.foldl (fun acc y => acc.bind fun r => (g y).map (cmb r)) acc = none := by
  intro l
  induction l with
  | nil => intro acc x hx; cases hx
  | cons hd tl ih =>
    intro acc x hx hg
    rw [List.foldl_cons]
    rcases List.mem_cons.mp hx with he | hm
    · subst he
      have hstep : (acc.bind fun r => (g x).map (cmb r)) = none := by
        rw [hg]
        cases acc <;> rfl
      rw [hstep]
      exact foldl_bind_none g cmb tl
    · exact ih _ x hm hg

/-- flatten_tree on a non-empty string never returns at any recursion
depth: iterating the string yields one-character strings, each of which
iterates to itself. -/
theorem flatten_fuel_str_none (h : Heap) :
    ∀ (fuel : Nat) (s : String), s ≠ "" → flatten_tree_fuel h fuel (.strV s) = none := by
  intro fuel
  induction fuel with
  | zero => intro s _; rfl
  | succ n ih =>
    intro s hs
    obtain ⟨l⟩ := s
    cases l with
    | nil => exact absurd rfl hs
    | cons c rest =>
      simp only [flatten_tree_fuel, strChildren, List.map_cons]
      exact foldl_bind_elem_none _ _ _ _ (HVal.strV ⟨[c]⟩) (List.mem_cons_self _ _)
        (ih ⟨[c]⟩ (fun he => List.cons_ne_nil c [] (congrArg String.data he)))

/-- flatten_tree never returns, at any recursion depth, on a value that
contains a non-empty string. -/
theorem flatten_fuel_contains_none (h : Heap) {v : HVal} (hc : ContainsNEStr h v) :
    ∀ fuel, flatten_tree_fuel h fuel v = none := by
  induction hc with
  | strHere hs => exact fun fuel => flatten_fuel_str_none h fuel _ hs
  | inSeq hcell hm _ ih =>
    intro fuel
    cases fuel with
    | zero => rfl
    | succ n =>
      simp only [flatten_tree_fuel, hcell]
      exact foldl_bind_elem_none _ _ _ _ _ hm (ih n)
  | inDict hcell hm _ ih =>
    intro fuel
    cases fuel with
    | zero => rfl
    | succ n =>
      simp only [flatten_tree_fuel, hcell]
      exact foldl_bind_elem_none _ _ _ _ _ hm (ih n)

/-- A fold of the flatten shape only accumulates elements that satisfy P
when every recursive result does and the accumulator does. -/
theorem foldl_bind_all_leaves {α : Type} (P : HVal → Prop) (g : α → Option (List HVal))
    (hg : ∀ x r, g x = some r → ∀ y ∈ r, P y) :
    ∀ (l : List α) (acc : Option (List HVal)) (res : List HVal),
      (∀ r0, acc = some r0 → ∀ y ∈ r0, P y) →
      l.foldl (fun a x => a.bind fun r => (g x).map (fun l2 => r ++ l2)) acc = some res →
      ∀ y ∈ res, P y := by
  intro l
  induction l with
  | nil =>
    intro acc res hacc heq
    exact hacc res heq
  | cons x l ih =>
    intro acc res hacc heq
    rw [List.foldl_cons] at heq
    cases hax : acc with
    | none =>
      rw [hax, Option.none_bind, foldl_bind_none] at heq
      cases heq
    | some r0 =>
      rw [hax, Option.some_bind] at heq
      cases hgx : g x with
      | none =>
        rw [hgx, Option.map_none', foldl_bind_none] at heq
        cases heq
      | some rg =>
        rw [hgx, Option.map_some'] at heq
        refine ih (some (r0 ++ rg)) res ?_ heq
        intro r1 h1 y hy
        injection h1 with h1
        subst h1
        rcases List.mem_append.mp hy with hy | hy
        · exact hacc r0 hax y hy
        · exact hg x rg hgx y hy

/-- Every element of a returned flatten result is non-iterable: iterables
are always walked into, never appended as leaves, so in particular no
string ever appears among the leaves. -/
theorem flatten_fuel_only_leaves (h : Heap) :
    ∀ fuel v res, flatten_tree_fuel h fuel v = some res → ∀ x ∈ res, is_iterable x = false := by
  intro fuel
  induction fuel with
  | zero => intro v res heq; cases heq
  | succ n ih =>
    intro v res heq
    cases v with
    | nodeV i =>
      simp only [flatten_tree_fuel] at heq
      injection heq with heq
      subst heq
      intro x hx
      rcases List.mem_singleton.mp hx with rfl
      rfl
    | atomV i =>
      simp only [flatten_tree_fuel] at heq
      injection heq with heq
      subst heq
      intro x hx
      rcases List.mem_singleton.mp hx with rfl
      rfl
    | strV s =>
      simp only [flatten_tree_fuel] at heq
      exact foldl_bind_all_leaves _ _ (fun x r hr => ih x r hr) _ _ res
        (by intro r0 h0 y hy; injection h0 with h0; subst h0; cases hy) heq
    | cellR i =>
      simp only [flatten_tree_fuel] at heq
      cases hcell : getCell h i with
      | seqC cs =>
        rw [hcell] at heq
        exact foldl_bind_all_leaves _ _ (fun x r hr => ih x r hr) _ _ res
          (by intro r0 h0 y hy; injection h0 with h0; subst h0; cases hy) heq
      | dictC es =>
        rw [hcell] at heq
        exact foldl_bind_all_leaves _ _ (fun e r hr => ih e.2 r hr) _ _ res
          (by intro r0 h0 y hy; injection h0 with h0; subst h0; cases hy) heq

/-- flatten_tree on the self-referential list never returns at any
recursion depth. -/
theorem cyclic_flatten_none :
    ∀ fuel, flatten_tree_fuel cyclicHeap fuel (.cellR 0) = none := by
  intro fuel
  induction fuel with
  | zero => rfl
  | succ n ih =>
    simp only [flatten_tree_fuel]
    exact foldl_bind_elem_none _ _ _ _ (HVal.cellR 0) (List.mem_cons_self _ _) ih

/-- transform_tree on the self-referential list never returns at any
recursion depth. -/
theorem cyclic_transform_none (fn : HVal → HVal) :
    ∀ fuel, transform_tree_fuel cyclicHeap fn fuel (.cellR 0) = none := by
  intro fuel
  induction fuel with
  | zero => rfl
  | succ n ih =>
    show Option.map RTree.seqT
        (List.foldl (fun acc c => acc.bind fun r =>
          Option.map (fun t => r ++ [t]) (transform_tree_fuel cyclicHeap fn n c))
          (some []) [HVal.cellR 0]) = none
    rw [foldl_bind_elem_none _ _ _ _ (HVal.cellR 0) (List.mem_cons_self _ _) ih]
    rfl

/-- Claim C7 (corrected): flatten_tree and transform_tree contain no
self-reference guard and no error path at all: on a self-referential
container they recurse without bound, never producing a result at any
recursion depth, and in particular never raise an InvalidInput error (in
CPython the unbounded recursion surfaces as the interpreter recursion
limit, not as an error of the library). -/
theorem claim_c7 (fuel : Nat) (fn : HVal → HVal) :
    flatten_tree_fuel cyclicHeap fuel (.cellR 0) = none ∧
    transform_tree_fuel cyclicHeap fn fuel (.cellR 0) = none :=
  ⟨cyclic_flatten_none fuel, cyclic_transform_none fn fuel⟩

/-- Claim C7 counterexample: on the self-referential list l = [l], both
walkers are still recursing at depth 1000 and no InvalidInput error has
been produced (their result type has no error outcome, because the
source functions contain no raise). -/
theorem claim_c7_counterexample :
    flatten_tree_fuel cyclicHeap 1000 (.cellR 0) = none ∧
    transform_tree_fuel cyclicHeap id 1000 (.cellR 0) = none :=
  ⟨cyclic_flatten_none 1000, cyclic_transform_none id 1000⟩

/-- Claim C10 (corrected): a value is appended as a leaf exactly when
is_iterable is false (a pge Node or a value on which iter raises); every
other iterable, a string included, is walked as a container, so a string
is never returned among the leaves and flatten_tree never returns on a
tree containing a non-empty string.  For transform_tree, however, the
claim fails: a string hits the Sequence branch, whose rebuild calls str
init with an unconsumed generator argument that str init ignores, so
transform_tree terminates on any string and returns the empty string. -/
theorem claim_c10 (h : Heap) (fuel : Nat) (v : HVal) (res : List HVal)
    (fn : HVal → HVal) (s : String) :
    (is_iterable v = false → flatten_tree_fuel h (fuel+1) v = some [v]) ∧
    (flatten_tree_fuel h fuel v = some res → ∀ x ∈ res, is_iterable x = false) ∧
    (ContainsNEStr h v → flatten_tree_fuel h fuel v = none) ∧
    transform_tree_fuel h fn (fuel+1) (.strV s) = some (.strT "") := by
  refine ⟨?_, fun he => flatten_fuel_only_leaves h fuel v res he,
    fun hc => flatten_fuel_contains_none h hc fuel, rfl⟩
  intro hit
  cases v with
  | nodeV i => rfl
  | atomV i => rfl
  | strV s2 => simp [is_iterable] at hit
  | cellR i => simp [is_iterable] at hit

/-- Claim C10 counterexample: transform_tree on the list with the
non-empty string ab and a Node terminates (already at depth 2), returning
the list of the empty string and the transformed Node, contrary to the
claim that it fails to terminate on any tree containing a non-empty
string. -/
theorem claim_c10_counterexample :
    transform_tree_fuel strHeap id 2 (.cellR 0) =
      some (.seqT [.strT "", .leafT (.nodeV 0)]) := rfl

/-- Witness for claim C10: the tree [ab, Node 0] contains a non-empty
string, so flatten_tree is still recursing at depth 9; a lone Node is a
leaf. -/
theorem claim_c10_witness :
    flatten_tree_fuel strHeap 9 (.cellR 0) = none ∧
    flatten_tree_fuel [] 1 (.nodeV 7) = some [.nodeV 7] := by
  constructor
  · exact (claim_c10 strHeap 9 (.cellR 0) [] id "").2.2.1
      (ContainsNEStr.inSeq rfl (List.mem_cons_self _ _)
        (ContainsNEStr.strHere (by decide)))
  · exact (claim_c10 [] 0 (.nodeV 7) [] id "").1 rfl

/-- Lookup distributes over appending to the dictionary: the old entries
win. -/
theorem lookupCI_append (m m2 : CtrlMap) (k : String) :
    lookupCI (m ++ m2) k =
      match lookupCI m k with
      | some v => some v
      | none => lookupCI m2 k := by
  induction m with
  | nil => rfl
  | cons e m ih =>
    obtain ⟨k1, v⟩ := e
    by_cases h : k1 = k <;> simp [lookupCI, h, ih]

/-- Lookup after replacing the value of a present key. -/
theorem lookupCI_setCI (m : CtrlMap) (key k : String) (nv l : List String)
    (hp : lookupCI m key = some l) :
    lookupCI (setCI m key nv) k = if key = k then some nv else lookupCI m k := by
  induction m with
  | nil => cases hp
  | cons e m ih =>
    obtain ⟨k1, v⟩ := e
    by_cases h1 : k1 = key
    · subst h1
      by_cases h2 : k1 = k <;> simp [setCI, lookupCI, h2]
    · have hp2 : lookupCI m key = some l := by
        rw [lookupCI, if_neg h1] at hp
        exact hp
      by_cases h2 : k1 = k
      · subst h2
        have hkk : ¬ key = k1 := fun he => h1 he.symm
        simp [setCI, lookupCI, h1, hkk]
      · simp [setCI, lookupCI, h1, h2, ih hp2]

/-- Effect of one addCtrlOutput step on the list stored under any key:
the key being added to gains the node name unless it is there already;
every other key is untouched. -/
theorem getCtrl_addCtrlOutput (m : CtrlMap) (ci nm k : String) :
    getCtrl (addCtrlOutput m ci nm) k =
      if k = ci then
        (if nm ∈ getCtrl m ci then getCtrl m ci else getCtrl m ci ++ [nm])
      else getCtrl m k := by
  unfold addCtrlOutput
  cases hl : lookupCI m ci with
  | none =>
    have hci : getCtrl m ci = [] := by simp [getCtrl, hl]
    by_cases h : k = ci
    · subst h
      simp [getCtrl, lookupCI_append, hl, hci, lookupCI]
    · have hne : ¬ ci = k := fun he => h he.symm
      simp only [getCtrl, lookupCI_append, lookupCI, hne, if_neg h, if_false]
      cases lookupCI m k <;> rfl
  | some l =>
    have hci : getCtrl m ci = l := by simp [getCtrl, hl]
    show getCtrl (if nm ∈ l then m else setCI m ci (l ++ [nm])) k = _
    by_cases hmem : nm ∈ l
    · rw [if_pos hmem]
      by_cases h : k = ci
      · subst h
        rw [if_pos rfl, hci, if_pos hmem]
      · rw [if_neg h]
    · rw [if_neg hmem]
      by_cases h : k = ci
      · subst h
        rw [if_pos rfl, hci, if_neg hmem]
        simp [getCtrl, lookupCI_setCI m k k (l ++ [nm]) l hl]
      · rw [if_neg h]
        have hne : ¬ ci = k := fun he => h he.symm
        simp [getCtrl, lookupCI_setCI m ci k (l ++ [nm]) l hl, hne]

/-- Effect of processing the whole control-input list of one node: every
key in the list that does not already record the name gains it at the
end; every other key is untouched. -/
theorem getCtrl_foldAdd (nm : String) (cis : List String) :
    ∀ (m : CtrlMap) (k : String),
      getCtrl (cis.foldl (fun m ci => addCtrlOutput m ci nm) m) k =
        if k ∈ cis ∧ nm ∉ getCtrl m k then getCtrl m k ++ [nm] else getCtrl m k := by
  induction cis with
  | nil =>
    intro m k
    simp
  | cons ci cis ih =>
    intro m k
    rw [List.foldl_cons, ih, getCtrl_addCtrlOutput]
    by_cases h1 : k = ci
    · subst h1
      by_cases h2 : nm ∈ getCtrl m k
      · simp [h2]
      · simp [h2, List.mem_append]
    · have hne : ¬ (k = ci) := h1
      simp only [if_neg hne]
      by_cases h3 : k ∈ cis
      · simp [h3, List.mem_cons, hne]
      · simp [h3, List.mem_cons, hne]

/-- Anything recorded after processing one node was recorded before or is
the name of that node. -/
theorem getCtrl_foldAdd_subset (nm x : String) (cis : List String) (m : CtrlMap)
    (k : String)
    (hx : x ∈ getCtrl (cis.foldl (fun m ci => addCtrlOutput m ci nm) m) k) :
    x ∈ getCtrl m k ∨ x = nm := by
  rw [getCtrl_foldAdd] at hx
  by_cases h : k ∈ cis ∧ nm ∉ getCtrl m k
  · rw [if_pos h] at hx
    rcases List.mem_append.mp hx with hx | hx
    · exact Or.inl hx
    · exact Or.inr (List.mem_singleton.mp hx)
  · rw [if_neg h] at hx
    exact Or.inl hx

/-- The build scan appends, under every key, the names of exactly the
scanned nodes that list that key among their control inputs, in scan
order, provided the node names are distinct and none of them is recorded
yet. -/
theorem getCtrl_build (ns : List PNode) :
    ∀ (m : CtrlMap) (k : String),
      (∀ nd ∈ ns, ∀ k2, nd.name ∉ getCtrl m k2) →
      (ns.map PNode.name).Nodup →
      getCtrl (ns.foldl buildNode m) k =
        getCtrl m k ++ (ns.filter (fun nd => decide (k ∈ nd.control_inputs))).map PNode.name := by
  induction ns with
  | nil =>
    intro m k _ _
    simp
  | cons nd ns ih =>
    intro m k hdisj hnodup
    rw [List.foldl_cons]
    have hfresh : nd.name ∉ getCtrl m k := hdisj nd (List.mem_cons_self _ _) k
    have hstep : ∀ k2, getCtrl (buildNode m nd) k2 =
        if k2 ∈ nd.control_inputs ∧ nd.name ∉ getCtrl m k2 then getCtrl m k2 ++ [nd.name]
        else getCtrl m k2 := by
      intro k2
      unfold buildNode
      rw [getCtrl_foldAdd]
    have hdisj2 : ∀ nd2 ∈ ns, ∀ k2, nd2.name ∉ getCtrl (buildNode m nd) k2 := by
      intro nd2 hm2 k2 hmem
      have hsub := getCtrl_foldAdd_subset nd.name nd2.name nd.control_inputs m k2 hmem
      rcases hsub with hin | heqn
      · exact hdisj nd2 (List.mem_cons_of_mem _ hm2) k2 hin
      · have hhead : nd.name ∉ ns.map PNode.name := (List.nodup_cons.mp hnodup).1
        exact hhead (heqn ▸ List.mem_map_of_mem PNode.name hm2)
    have hnodup2 : (ns.map PNode.name).Nodup := (List.nodup_cons.mp hnodup).2
    rw [ih (buildNode m nd) k hdisj2 hnodup2, hstep k, List.filter_cons]
    by_cases hk : k ∈ nd.control_inputs
    · have hdec : decide (k ∈ nd.control_inputs) = true := decide_eq_true hk
      rw [hdec]
      simp [hk, hfresh]
    · have hdec : decide (k ∈ nd.control_inputs) = false := decide_eq_false hk
      rw [hdec]
      simp [hk]

/-- Claim C5 (confirmed): once the index is built, get returns exactly
the nodes of the graph whose control-input set contains the queried node,
in scan (discovery) order, each at most once even when a node repeats the
control input, and the empty sequence when no node lists it.  The
hypothesis is the repository invariant that node names are unique within
a graph. -/
theorem claim_c5 (g : PGraph) (k : String) (h : (g.nodes.map PNode.name).Nodup) :
    (ControlOutputs.init g).get k =
      (g.nodes.filter (fun nd => decide (k ∈ nd.control_inputs))).map PNode.name := by
  have hinit : (ControlOutputs.init g).get k = getCtrl (controlOutputsMap g) k := rfl
  rw [hinit]
  unfold controlOutputsMap
  rw [getCtrl_build g.nodes [] k (by intro nd _ k2 hmem; cases hmem) h]
  rfl

/-- Witness for claim C5 on the graph gW: b and c list a as a control
input (c twice), so get(a) is b then c with no duplicate; get(b) is c;
get(d) is empty. -/
theorem claim_c5_witness :
    (gW.nodes.map PNode.name).Nodup ∧
    (ControlOutputs.init gW).get "a" = ["b", "c"] ∧
    (ControlOutputs.init gW).get "b" = ["c"] ∧
    (ControlOutputs.init gW).get "d" = [] := by
  refine ⟨by decide, ?_, ?_, ?_⟩
  · rw [claim_c5 gW "a" (by decide)]
    decide
  · rw [claim_c5 gW "b" (by decide)]
    decide
  · rw [claim_c5 gW "d" (by decide)]
    decide

end PGE
